import Mathlib

/-!
Shallow embedding of `helper.py`: a correlation engine deriving collaboration
facts from chat channels, a commit log, and meeting transcripts.

Modelling conventions:
* Python dict records whose field *names* never matter to any property are
  embedded as structures with `Option` fields (a missing key is `none`).
* Commit records are embedded as association lists `Cdict` of `(key, value)`
  pairs, because `get_user_github_commits` builds output dicts whose key names
  differ from the input's, and that renaming is an observable property.
* `d[k]` (Python bracket access, raising `KeyError` when absent) is `req`/`item`
  returning `Except String`; `d.get(k)` is an `Option` lookup; `d.get(k, v)` is
  `dgetD`.  Python string concatenation on a non-string raises `TypeError`;
  `valStr` mirrors this.
* Python `s[:n]` is `strTake n s`; Python `a in b` on strings is `strIn a b`.
* All scans are structural recursions returning `Except String` so a fault
  raised mid-scan aborts the whole call, exactly as a Python exception would.
-/

deriving instance DecidableEq for Except

/-- Values that occur in commit records: strings, booleans, integers and
string lists (the `files_changed` field). -/
inductive Val where
  | str (s : String)
  | bool (b : Bool)
  | int (n : Int)
  | strList (xs : List String)
deriving DecidableEq

/-- A commit record: an association list mirroring a Python dict. -/
abbrev Cdict := List (String × Val)

/-- Bracket lookup on an association list, first match wins. -/
def dget : Cdict → String → Option Val
  | [], _ => none
  | (k, v) :: rest, key => if k = key then some v else dget rest key

/-- Python `d.get(key, default)`. -/
def dgetD (c : Cdict) (key : String) (d : Val) : Val :=
  (dget c key).getD d

/-- Python `d[key]`: `KeyError` when the key is absent. -/
def item (c : Cdict) (key : String) : Except String Val :=
  match dget c key with
  | some v => .ok v
  | none => .error ("KeyError: " ++ key)

/-- Python `d[key]` on an `Option` field of a structure-embedded record. -/
def req (o : Option α) (key : String) : Except String α :=
  match o with
  | some a => .ok a
  | none => .error ("KeyError: " ++ key)

/-- Coerce a value to a string for Python `+` concatenation; any other
value would raise `TypeError` in the source. -/
def valStr (v : Val) : Except String String :=
  match v with
  | .str s => .ok s
  | _ => .error "TypeError"

/-- Python `needle in hay` on lists of characters. -/
def listIsSub (needle : List Char) : List Char → Bool
  | [] => needle.isEmpty
  | c :: t => needle.isPrefixOf (c :: t) || listIsSub needle t

/-- Python `needle in hay` on strings. -/
def strIn (needle hay : String) : Bool :=
  listIsSub needle.data hay.data

/-- Python `s[:n]`. -/
def strTake (n : Nat) (s : String) : String :=
  ⟨s.data.take n⟩

/-- A chat message: author, text and the contains-code flag, each possibly
absent (`msg["ts"]` is only read by the unclaimed `get_user_slack_messages`). -/
structure Message where
  user : Option String
  text : Option String
  contains_code : Option Bool
deriving DecidableEq

/-- A channel: identifier (possibly absent) and its ordered messages. -/
structure Channel where
  channel_id : Option String
  messages : List Message
deriving DecidableEq

/-- The chat workspace: `slack_data.get("channels", [])`. -/
structure SlackData where
  channels : List Channel
deriving DecidableEq

/-- The commit log: `github_data.get("commits", [])`. -/
structure GithubData where
  commits : List Cdict
deriving DecidableEq

/-- One turn of a meeting transcript. -/
structure TranscriptLine where
  user : Option String
  text : Option String
deriving DecidableEq

/-- A meeting: identifier (never raises when absent, the source uses `.get`)
and its ordered transcript. -/
structure Meeting where
  meeting_id : Option String
  transcript : List TranscriptLine
deriving DecidableEq

/-- Output record of `get_user_received_code`. -/
structure ReceivedCodeFact where
  channel : String
  from_user : String
  code_snippet : String
  acknowledged_by_user : String
deriving DecidableEq

/-- Output record of `extract_peer_kudos`: a single structure covering both
fact shapes; `ack_text` is present exactly on `slack_ack` facts and
`commit_sha` exactly on `github_usage` facts. -/
structure KudosFact where
  from_user : String
  to_user : Val
  channel : String
  code_snippet : String
  ack_text : Option String
  commit_sha : Option Val
  type : String
deriving DecidableEq

/-- One line of a `ContextFlow`. -/
structure FlowLine where
  user : String
  text : String
deriving DecidableEq

/-- Output record of `get_user_meeting_transcripts_with_context`. -/
structure ContextFlow where
  meeting_id : Option String
  flow : List FlowLine
deriving DecidableEq

/-- Embedding of `get_user_github_commits`'s list-comprehension body: build the
output record for one selected commit, reading the input fields in source
order (`sha`, `date`, `commit_message`, `files_changed`, `lines_added`,
`lines_deleted`, `area`, `codediff`) and emitting them under the output key
names used at lines 34-43 of `helper.py`. -/
def commitOut (c : Cdict) : Except String Cdict := do
  let sha ← item c "sha"
  let date ← item c "date"
  let msg ← item c "commit_message"
  let fc ← item c "files_changed"
  let la ← item c "lines_added"
  let ld ← item c "lines_deleted"
  let area ← item c "area"
  let cd ← item c "codediff"
  .ok [("sha", sha), ("date", date), ("message", msg), ("files_changed", fc),
       ("lines_added", la), ("lines_deleted", ld), ("area", area), ("codediff", cd)]

/-- Recursive embedding of the comprehension in `get_user_github_commits`:
filter on `commit.get("author") == user_id`, then build the output record. -/
def githubCommitsScan (user_id : String) : List Cdict → Except String (List Cdict)
  | [] => .ok []
  | c :: rest =>
    if dget c "author" = some (.str user_id) then do
      let out ← commitOut c
      let tail ← githubCommitsScan user_id rest
      .ok (out :: tail)
    else githubCommitsScan user_id rest

/-- Embedding of `get_user_github_commits` (helper.py lines 29-46). -/
def get_user_github_commits (github_data : GithubData) (user_id : String) :
    Except String (List Cdict) :=
  githubCommitsScan user_id github_data.commits

/-- Embedding of the inner loop of `get_user_received_code` (lines 61-69 up to
the match test): find the first message of the window whose `.get("user")`
equals the target user.  No field access here can raise. -/
def findFirstAck (user_id : String) : List Message → Option Message
  | [] => none
  | m :: rest => if m.user = some user_id then some m else findFirstAck user_id rest

/-- Per-channel scan of `get_user_received_code`: each message is paired with
the list of messages after it, the window is `messages[i+1:i+4]`, and on a
first acknowledger the emitted record reads `channel["channel_id"]`,
`msg["user"]`, `msg["text"]`, `follow_up["text"]` in that order. -/
def scanReceived (user_id : String) (cid : Option String) :
    List Message → Except String (List ReceivedCodeFact)
  | [] => .ok []
  | msg :: rest =>
    if msg.contains_code = some true ∧ msg.user ≠ some user_id then
      match findFirstAck user_id (rest.take 3) with
      | some ack => do
        let c ← req cid "channel_id"
        let fu ← req msg.user "user"
        let sn ← req msg.text "text"
        let ak ← req ack.text "text"
        let tail ← scanReceived user_id cid rest
        .ok ({ channel := c, from_user := fu, code_snippet := sn,
               acknowledged_by_user := ak } :: tail)
      | none => scanReceived user_id cid rest
    else scanReceived user_id cid rest

/-- Channel loop of `get_user_received_code`. -/
def receivedChannels (user_id : String) : List Channel → Except String (List ReceivedCodeFact)
  | [] => .ok []
  | ch :: rest => do
    let here ← scanReceived user_id ch.channel_id ch.messages
    let tail ← receivedChannels user_id rest
    .ok (here ++ tail)

/-- Embedding of `get_user_received_code` (helper.py lines 49-71). -/
def get_user_received_code (slack_data : SlackData) (user_id : String) :
    Except String (List ReceivedCodeFact) :=
  receivedChannels user_id slack_data.channels

/-- Channel-acknowledgment pass of `extract_peer_kudos` (lines 128-137) over
the already-sliced window: `follow_up["user"]` raises when absent, and on a
non-target author a `slack_ack` fact is emitted reading `channel["channel_id"]`
and `follow_up["text"]`. -/
def kudosAckPass (user_id : String) (cid : Option String) (snippet : String) :
    List Message → Except String (List KudosFact)
  | [] => .ok []
  | fu :: rest => do
    let u ← req fu.user "user"
    if u ≠ user_id then do
      let c ← req cid "channel_id"
      let ak ← req fu.text "text"
      let tail ← kudosAckPass user_id cid snippet rest
      .ok ({ from_user := user_id, to_user := .str u, channel := c,
             code_snippet := snippet, ack_text := some ak, commit_sha := none,
             type := "slack_ack" } :: tail)
    else kudosAckPass user_id cid snippet rest

/-- Commit-usage pass of `extract_peer_kudos` (lines 140-151): for each commit
whose `.get("author")` differs from the target user, build
`commit.get("codediff", "") + " " + commit.get("commit_message", "")` and test
whether the first 30 characters of the snippet occur in it; on a match emit a
`github_usage` fact reading `commit["author"]` then `commit["sha"]`. -/
def kudosCommitPass (user_id : String) (snippet : String) :
    List Cdict → Except String (List KudosFact)
  | [] => .ok []
  | c :: rest =>
    if dget c "author" ≠ some (.str user_id) then do
      let cd ← valStr (dgetD c "codediff" (.str ""))
      let cm ← valStr (dgetD c "commit_message" (.str ""))
      if strIn (strTake 30 snippet) (cd ++ " " ++ cm) then do
        let au ← item c "author"
        let sha ← item c "sha"
        let tail ← kudosCommitPass user_id snippet rest
        .ok ({ from_user := user_id, to_user := au, channel := "github",
               code_snippet := snippet, ack_text := none, commit_sha := some sha,
               type := "github_usage" } :: tail)
      else kudosCommitPass user_id snippet rest
    else kudosCommitPass user_id snippet rest

/-- Per-message unit of `extract_peer_kudos` (lines 124-151): when the message
is authored by the target user and flagged as code, read `msg["text"]`, run
the acknowledgment pass over `messages[idx+1 : idx+1+context_window]` and then
the commit pass over the whole commit list; otherwise emit nothing. -/
def kudosForMsg (user_id : String) (cid : Option String) (context_window : Nat)
    (commits : List Cdict) (msg : Message) (rest : List Message) :
    Except String (List KudosFact) :=
  if msg.user = some user_id ∧ msg.contains_code = some true then do
    let snippet ← req msg.text "text"
    let acks ← kudosAckPass user_id cid snippet (rest.take context_window)
    let uses ← kudosCommitPass user_id snippet commits
    .ok (acks ++ uses)
  else .ok []

/-- Message loop of `extract_peer_kudos` inside one channel. -/
def kudosScanMessages (user_id : String) (cid : Option String) (context_window : Nat)
    (commits : List Cdict) : List Message → Except String (List KudosFact)
  | [] => .ok []
  | msg :: rest => do
    let here ← kudosForMsg user_id cid context_window commits msg rest
    let tail ← kudosScanMessages user_id cid context_window commits rest
    .ok (here ++ tail)

/-- Channel loop of `extract_peer_kudos`. -/
def kudosChannels (user_id : String) (context_window : Nat) (commits : List Cdict) :
    List Channel → Except String (List KudosFact)
  | [] => .ok []
  | ch :: rest => do
    let here ← kudosScanMessages user_id ch.channel_id context_window commits ch.messages
    let tail ← kudosChannels user_id context_window commits rest
    .ok (here ++ tail)

/-- Embedding of `extract_peer_kudos` (helper.py lines 114-153). -/
def extract_peer_kudos (slack_data : SlackData) (github_data : GithubData)
    (user_id : String) (context_window : Nat := 3) : Except String (List KudosFact) :=
  kudosChannels user_id context_window github_data.commits slack_data.channels

/-- Indices of transcript lines spoken by the target user
(`line.get("user") == user_id` at line 91 of helper.py). -/
def speakIndices (user_id : String) (ts : List TranscriptLine) : List Nat :=
  (List.range ts.length).filter
    (fun idx => decide ((ts.getD idx ⟨none, none⟩).user = some user_id))

/-- Membership in the `included_indices` set of
`get_user_meeting_transcripts_with_context` (lines 88-96): the set is the
union over every index where the target user speaks of
`range(max(0, idx - cw), min(len(transcript), idx + cw + 1))`.  Natural-number
subtraction makes `idx - cw` the clamped lower bound. -/
def includedB (user_id : String) (cw : Nat) (ts : List TranscriptLine) (i : Nat) : Bool :=
  (speakIndices user_id ts).any
    (fun idx => decide (idx - cw ≤ i) && decide (i < min ts.length (idx + cw + 1)))

/-- The ascending enumeration `sorted(included_indices)` (line 100): every
included index is below `len(transcript)`, so visiting `range(len(transcript))`
and keeping the included ones enumerates the set in increasing order. -/
def sortedIncluded (user_id : String) (cw : Nat) (ts : List TranscriptLine) : List Nat :=
  (List.range ts.length).filter (includedB user_id cw ts)

/-- Materialize the flow (lines 99-104): visit the sorted indices and read
`transcript[i]["user"]` and `transcript[i]["text"]`, either of which raises
when absent. -/
def buildFlow (ts : List TranscriptLine) : List Nat → Except String (List FlowLine)
  | [] => .ok []
  | i :: rest => do
    let line := ts.getD i ⟨none, none⟩
    let u ← req line.user "user"
    let t ← req line.text "text"
    let tail ← buildFlow ts rest
    .ok ({ user := u, text := t } :: tail)

/-- Per-meeting body of `get_user_meeting_transcripts_with_context`: compute
the included indices and, when non-empty, emit the one flow for the meeting. -/
def processMeeting (user_id : String) (cw : Nat) (m : Meeting) :
    Except String (List ContextFlow) :=
  let inc := sortedIncluded user_id cw m.transcript
  if inc = [] then .ok []
  else do
    let fl ← buildFlow m.transcript inc
    .ok [{ meeting_id := m.meeting_id, flow := fl }]

/-- Meeting loop of `get_user_meeting_transcripts_with_context`. -/
def transcriptsScan (user_id : String) (cw : Nat) :
    List Meeting → Except String (List ContextFlow)
  | [] => .ok []
  | m :: rest => do
    let here ← processMeeting user_id cw m
    let tail ← transcriptsScan user_id cw rest
    .ok (here ++ tail)

/-- Embedding of `get_user_meeting_transcripts_with_context`
(helper.py lines 74-111). -/
def get_user_meeting_transcripts_with_context (transcripts_data : List Meeting)
    (user_id : String) (context_window : Nat := 2) : Except String (List ContextFlow) :=
  transcriptsScan user_id context_window transcripts_data

/-- Pair each element of a list with the list of elements after it, mirroring
`for i, msg in enumerate(messages)` together with the slice `messages[i+1:]`. -/
def withRest : List α → List (α × List α)
  | [] => []
  | a :: l => (a, l) :: withRest l

/-- The evidence backing one commit-usage kudos fact: a commit of the scanned
collection, authored by someone other than the target user, whose author and
sha are the emitted fields and whose diff body and message text — joined by
the single space the source inserts — contain the 30-character prefix of the
recorded snippet. -/
def usageEvidence (u : String) (commits : List Cdict) (f : KudosFact) : Prop :=
  f.to_user ≠ Val.str u ∧
  ∃ c ∈ commits, ∃ cd cm sha,
    dgetD c "codediff" (Val.str "") = Val.str cd ∧
    dgetD c "commit_message" (Val.str "") = Val.str cm ∧
    dget c "author" = some f.to_user ∧
    dget c "sha" = some sha ∧ f.commit_sha = some sha ∧
    strIn (strTake 30 f.code_snippet) (cd ++ " " ++ cm) = true

/-! ### Helper lemmas -/

theorem exbind_ok (a : α) (f : α → Except String β) :
    (Except.ok a : Except String α) >>= f = f a := rfl

theorem exbind_err (e : String) (f : α → Except String β) :
    (Except.error e : Except String α) >>= f = Except.error e := rfl

theorem req_some (a : α) (k : String) : req (some a) k = .ok a := rfl

theorem req_none (k : String) : req (none : Option α) k = .error ("KeyError: " ++ k) := rfl

theorem listIsSub_nil (l : List Char) : listIsSub [] l = true := by
  induction l with
  | nil => rfl
  | cons c t ih => simp [listIsSub, List.isPrefixOf, ih]

theorem strIn_empty (s : String) : strIn "" s = true := listIsSub_nil s.data

theorem strTake_of_short {s : String} (h : s.length < 30) : strTake 30 s = s := by
  cases s with
  | mk data =>
    simp only [strTake]
    congr 1
    exact List.take_of_length_le (Nat.le_of_lt h)

theorem kudosAckPass_types {u : String} {cid : Option String} {s : String}
    {W : List Message} {facts : List KudosFact}
    (h : kudosAckPass u cid s W = .ok facts) :
    ∀ f ∈ facts, f.type = "slack_ack" := by
  induction W generalizing facts with
  | nil =>
    simp only [kudosAckPass] at h
    cases h
    intro f hf; cases hf
  | cons fu rest ih =>
    simp only [kudosAckPass] at h
    cases hfu : fu.user with
    | none => rw [hfu] at h; rw [req_none, exbind_err] at h; cases h
    | some v =>
      rw [hfu, req_some, exbind_ok] at h
      by_cases hv : v = u
      · rw [if_neg (by simp [hv])] at h
        exact ih h
      · rw [if_pos hv] at h
        cases hcid : cid with
        | none => rw [hcid, req_none, exbind_err] at h; cases h
        | some c =>
          subst hcid
          rw [req_some, exbind_ok] at h
          cases hft : fu.text with
          | none => rw [hft, req_none, exbind_err] at h; cases h
          | some t =>
            rw [hft, req_some, exbind_ok] at h
            cases htail : kudosAckPass u (some c) s rest with
            | error e => rw [htail, exbind_err] at h; cases h
            | ok tail =>
              rw [htail, exbind_ok] at h
              cases h
              intro f hf
              rcases List.mem_cons.mp hf with hf | hf
              · subst hf; rfl
              · exact ih htail f hf

theorem kudosAckPass_spec {u : String} {cid : Option String} {s : String}
    {W : List Message} {facts : List KudosFact}
    (h : kudosAckPass u cid s W = .ok facts) :
    List.Forall₂ (fun fu f => ∃ v t c, fu.user = some v ∧ v ≠ u ∧ fu.text = some t ∧
        cid = some c ∧
        f = { from_user := u, to_user := Val.str v, channel := c, code_snippet := s,
              ack_text := some t, commit_sha := none, type := "slack_ack" })
      (W.filter (fun fu => decide (fu.user ≠ some u))) facts := by
  induction W generalizing facts with
  | nil =>
    simp only [kudosAckPass] at h
    cases h
    exact List.Forall₂.nil
  | cons fu rest ih =>
    simp only [kudosAckPass] at h
    cases hfu : fu.user with
    | none => rw [hfu, req_none, exbind_err] at h; cases h
    | some v =>
      rw [hfu, req_some, exbind_ok] at h
      by_cases hv : v = u
      · rw [if_neg (by simp [hv])] at h
        have hfilter : (List.filter (fun fu => decide (fu.user ≠ some u)) (fu :: rest))
            = List.filter (fun fu => decide (fu.user ≠ some u)) rest := by
          simp [List.filter_cons, hfu, hv]
        rw [hfilter]
        exact ih h
      · rw [if_pos hv] at h
        cases hcid : cid with
        | none => rw [hcid, req_none, exbind_err] at h; cases h
        | some c =>
          subst hcid
          rw [req_some, exbind_ok] at h
          cases hft : fu.text with
          | none => rw [hft, req_none, exbind_err] at h; cases h
          | some t =>
            rw [hft, req_some, exbind_ok] at h
            cases htail : kudosAckPass u (some c) s rest with
            | error e => rw [htail, exbind_err] at h; cases h
            | ok tail =>
              rw [htail, exbind_ok] at h
              cases h
              have hfilter : (List.filter (fun fu => decide (fu.user ≠ some u)) (fu :: rest))
                  = fu :: List.filter (fun fu => decide (fu.user ≠ some u)) rest := by
                simp [List.filter_cons, hfu, hv]
              rw [hfilter]
              exact List.Forall₂.cons ⟨v, t, c, hfu, hv, hft, rfl, rfl⟩ (ih htail)

theorem kudosCommitPass_mem {u s : String} {gh : List Cdict} {facts : List KudosFact}
    (h : kudosCommitPass u s gh = .ok facts) :
    ∀ f ∈ facts,
      f.from_user = u ∧ f.type = "github_usage" ∧ f.code_snippet = s ∧
      f.channel = "github" ∧ f.ack_text = none ∧ f.to_user ≠ Val.str u ∧
      ∃ c ∈ gh, ∃ cd cm sha,
        dgetD c "codediff" (Val.str "") = Val.str cd ∧
        dgetD c "commit_message" (Val.str "") = Val.str cm ∧
        dget c "author" = some f.to_user ∧
        dget c "sha" = some sha ∧ f.commit_sha = some sha ∧
        strIn (strTake 30 s) (cd ++ " " ++ cm) = true := by
  induction gh generalizing facts with
  | nil =>
    simp only [kudosCommitPass] at h
    cases h
    intro f hf; cases hf
  | cons c rest ih =>
    simp only [kudosCommitPass] at h
    by_cases hau : dget c "author" ≠ some (Val.str u)
    · rw [if_pos hau] at h
      cases hcd : dgetD c "codediff" (Val.str "") with
      | str cd =>
        rw [hcd] at h
        simp only [valStr, exbind_ok] at h
        cases hcm : dgetD c "commit_message" (Val.str "") with
        | str cm =>
          rw [hcm] at h
          simp only [valStr, exbind_ok] at h
          cases hmatch : strIn (strTake 30 s) (cd ++ " " ++ cm) with
          | false =>
            rw [hmatch] at h
            simp only [Bool.false_eq_true, if_false] at h
            intro f hf
            obtain ⟨hf1, hf2, hf3, hf4, hf5, hf6, c', hc', rest'⟩ := ih h f hf
            exact ⟨hf1, hf2, hf3, hf4, hf5, hf6, c', List.mem_cons_of_mem _ hc', rest'⟩
          | true =>
            rw [hmatch] at h
            simp only [if_true] at h
            cases hau' : dget c "author" with
            | none => simp only [item, hau', exbind_err] at h; cases h
            | some a =>
              simp only [item, hau', exbind_ok] at h
              cases hsha : dget c "sha" with
              | none => simp only [item, hsha, exbind_err] at h; cases h
              | some sha =>
                simp only [item, hsha, exbind_ok] at h
                cases htail : kudosCommitPass u s rest with
                | error e => rw [htail, exbind_err] at h; cases h
                | ok tail =>
                  rw [htail, exbind_ok] at h
                  cases h
                  intro f hf
                  rcases List.mem_cons.mp hf with hf | hf
                  · subst hf
                    have hane : a ≠ Val.str u := by
                      intro hEq; exact hau (hEq ▸ hau')
                    exact ⟨rfl, rfl, rfl, rfl, rfl, hane,
                      c, List.mem_cons_self _ _,
                      cd, cm, sha, hcd, hcm, hau', hsha, rfl, hmatch⟩
                  · obtain ⟨hf1, hf2, hf3, hf4, hf5, hf6, c', hc', rest'⟩ := ih htail f hf
                    exact ⟨hf1, hf2, hf3, hf4, hf5, hf6, c', List.mem_cons_of_mem _ hc', rest'⟩
        | bool b => rw [hcm] at h; simp only [valStr, exbind_err] at h; cases h
        | int n => rw [hcm] at h; simp only [valStr, exbind_err] at h; cases h
        | strList xs => rw [hcm] at h; simp only [valStr, exbind_err] at h; cases h
      | bool b => rw [hcd] at h; simp only [valStr, exbind_err] at h; cases h
      | int n => rw [hcd] at h; simp only [valStr, exbind_err] at h; cases h
      | strList xs => rw [hcd] at h; simp only [valStr, exbind_err] at h; cases h
    · rw [if_neg hau] at h
      intro f hf
      obtain ⟨hf1, hf2, hf3, hf4, hf5, hf6, c', hc', rest'⟩ := ih h f hf
      exact ⟨hf1, hf2, hf3, hf4, hf5, hf6, c', List.mem_cons_of_mem _ hc', rest'⟩

theorem kudosForMsg_usage {u : String} {cid : Option String} {w : Nat}
    {commits : List Cdict} {msg : Message} {rest : List Message} {facts : List KudosFact}
    (h : kudosForMsg u cid w commits msg rest = .ok facts) :
    ∀ f ∈ facts, f.type = "github_usage" → usageEvidence u commits f := by
  rw [kudosForMsg] at h
  by_cases hcond : msg.user = some u ∧ msg.contains_code = some true
  · rw [if_pos hcond] at h
    cases ht : msg.text with
    | none => rw [ht, req_none, exbind_err] at h; cases h
    | some s =>
      rw [ht, req_some, exbind_ok] at h
      cases hack : kudosAckPass u cid s (rest.take w) with
      | error e => rw [hack, exbind_err] at h; cases h
      | ok acks =>
        rw [hack, exbind_ok] at h
        cases huse : kudosCommitPass u s commits with
        | error e => rw [huse, exbind_err] at h; cases h
        | ok uses =>
          rw [huse, exbind_ok] at h
          cases h
          intro f hf hty
          rcases List.mem_append.mp hf with hf | hf
          · have := kudosAckPass_types hack f hf
            rw [hty] at this
            exact absurd this (by decide)
          · obtain ⟨_, _, hf3, _, _, hf6, c', hc', cd, cm, sha, hcd, hcm, hau, hsha, hfsha, hm⟩ :=
              kudosCommitPass_mem huse f hf
            refine ⟨hf6, c', hc', cd, cm, sha, hcd, hcm, hau, hsha, hfsha, ?_⟩
            rw [hf3]
            exact hm
  · rw [if_neg hcond] at h
    cases h
    intro f hf; cases hf

theorem kudosScanMessages_usage {u : String} {cid : Option String} {w : Nat}
    {commits : List Cdict} {msgs : List Message} {facts : List KudosFact}
    (h : kudosScanMessages u cid w commits msgs = .ok facts) :
    ∀ f ∈ facts, f.type = "github_usage" → usageEvidence u commits f := by
  induction msgs generalizing facts with
  | nil => simp only [kudosScanMessages] at h; cases h; intro f hf; cases hf
  | cons msg rest ih =>
    simp only [kudosScanMessages] at h
    cases hhere : kudosForMsg u cid w commits msg rest with
    | error e => rw [hhere, exbind_err] at h; cases h
    | ok here =>
      rw [hhere, exbind_ok] at h
      cases htail : kudosScanMessages u cid w commits rest with
      | error e => rw [htail, exbind_err] at h; cases h
      | ok tail =>
        rw [htail, exbind_ok] at h
        cases h
        intro f hf hty
        rcases List.mem_append.mp hf with hf | hf
        · exact kudosForMsg_usage hhere f hf hty
        · exact ih htail f hf hty

theorem kudosChannels_usage {u : String} {w : Nat}
    {commits : List Cdict} {chans : List Channel} {facts : List KudosFact}
    (h : kudosChannels u w commits chans = .ok facts) :
    ∀ f ∈ facts, f.type = "github_usage" → usageEvidence u commits f := by
  induction chans generalizing facts with
  | nil => simp only [kudosChannels] at h; cases h; intro f hf; cases hf
  | cons ch rest ih =>
    simp only [kudosChannels] at h
    cases hhere : kudosScanMessages u ch.channel_id w commits ch.messages with
    | error e => rw [hhere, exbind_err] at h; cases h
    | ok here =>
      rw [hhere, exbind_ok] at h
      cases htail : kudosChannels u w commits rest with
      | error e => rw [htail, exbind_err] at h; cases h
      | ok tail =>
        rw [htail, exbind_ok] at h
        cases h
        intro f hf hty
        rcases List.mem_append.mp hf with hf | hf
        · exact kudosScanMessages_usage hhere f hf hty
        · exact ih htail f hf hty

/-- C1 (amended): every commit-usage fact emitted by `extract_peer_kudos` comes
from a commit whose author differs from the target user, and the first 30
characters of the recorded snippet occur in the commit's diff body and message
text joined by a single space. -/
theorem extractKudos_commit_usage_evidence (slack : SlackData) (gh : GithubData)
    (u : String) (w : Nat) (facts : List KudosFact)
    (h : extract_peer_kudos slack gh u w = .ok facts) :
    ∀ f ∈ facts, f.type = "github_usage" → usageEvidence u gh.commits f :=
  kudosChannels_usage h

/-- C1 witness. -/
theorem extractKudos_commit_usage_evidence_witness :
    usageEvidence "A"
      [[("author", Val.str "B"), ("sha", Val.str "s9"),
        ("codediff", Val.str "y = print(1)"), ("commit_message", Val.str "msg")]]
      { from_user := "A", to_user := Val.str "B", channel := "github",
        code_snippet := "print(1)", ack_text := none,
        commit_sha := some (Val.str "s9"), type := "github_usage" } :=
  extractKudos_commit_usage_evidence
    ⟨[⟨some "ch", [⟨some "A", some "print(1)", some true⟩]⟩]⟩
    ⟨[[("author", Val.str "B"), ("sha", Val.str "s9"),
       ("codediff", Val.str "y = print(1)"), ("commit_message", Val.str "msg")]]⟩
    "A" 3
    [{ from_user := "A", to_user := Val.str "B", channel := "github",
       code_snippet := "print(1)", ack_text := none,
       commit_sha := some (Val.str "s9"), type := "github_usage" }] (by decide)
    { from_user := "A", to_user := Val.str "B", channel := "github",
      code_snippet := "print(1)", ack_text := none,
      commit_sha := some (Val.str "s9"), type := "github_usage" }
    (List.mem_cons_self _ _) rfl

/-- C1 counterexample: a commit-usage fact is emitted although the 30-character
prefix of the snippet is not a substring of the plain concatenation of the
diff body and the message text; it only occurs across the space the code
inserts between them. -/
theorem extractKudos_prefix_spans_separator :
    extract_peer_kudos
      ⟨[⟨some "ch", [⟨some "A", some "a b", some true⟩]⟩]⟩
      ⟨[[("author", Val.str "B"), ("sha", Val.str "s1"),
         ("codediff", Val.str "a"), ("commit_message", Val.str "b")]]⟩ "A" 3
    = .ok [{ from_user := "A", to_user := Val.str "B", channel := "github",
             code_snippet := "a b", ack_text := none,
             commit_sha := some (Val.str "s1"), type := "github_usage" }]
    ∧ strIn (strTake 30 "a b") ("a" ++ "b") = false := by decide

/-- C2: for a target-user message flagged as code, the channel-acknowledgment
pass emits one `slack_ack` fact for every window follow-up authored by someone
else, in order, each carrying the channel id, the message text as snippet and
the follow-up text as acknowledgment; these facts open the per-message output
of `extract_peer_kudos`. -/
theorem kudosForMsg_ack_every (u : String) (cid : Option String) (w : Nat)
    (commits : List Cdict) (msg : Message) (rest : List Message)
    (snippet : String) (facts : List KudosFact)
    (hu : msg.user = some u) (hc : msg.contains_code = some true)
    (ht : msg.text = some snippet)
    (h : kudosForMsg u cid w commits msg rest = .ok facts) :
    ∃ acks uses, facts = acks ++ uses ∧
      kudosCommitPass u snippet commits = .ok uses ∧
      List.Forall₂ (fun fu f => ∃ v t c, fu.user = some v ∧ v ≠ u ∧ fu.text = some t ∧
          cid = some c ∧
          f = { from_user := u, to_user := Val.str v, channel := c, code_snippet := snippet,
                ack_text := some t, commit_sha := none, type := "slack_ack" })
        ((rest.take w).filter (fun fu => decide (fu.user ≠ some u))) acks ∧
      ∀ all : List KudosFact,
        extract_peer_kudos ⟨[⟨cid, msg :: rest⟩]⟩ ⟨commits⟩ u w = .ok all →
        ∃ tl, all = facts ++ tl := by
  rw [kudosForMsg, if_pos ⟨hu, hc⟩, ht, req_some, exbind_ok] at h
  cases hack : kudosAckPass u cid snippet (rest.take w) with
  | error e => rw [hack, exbind_err] at h; cases h
  | ok acks =>
    rw [hack, exbind_ok] at h
    cases huse : kudosCommitPass u snippet commits with
    | error e => rw [huse, exbind_err] at h; cases h
    | ok uses =>
      rw [huse, exbind_ok] at h
      cases h
      refine ⟨acks, uses, rfl, rfl, kudosAckPass_spec hack, ?_⟩
      intro all hall
      rw [extract_peer_kudos] at hall
      simp only [kudosChannels, kudosScanMessages] at hall
      rw [kudosForMsg, if_pos ⟨hu, hc⟩, ht, req_some, exbind_ok, hack, exbind_ok,
        huse, exbind_ok, exbind_ok] at hall
      cases htl : kudosScanMessages u cid w commits rest with
      | error e => rw [htl, exbind_err, exbind_err] at hall; cases hall
      | ok tl =>
        rw [htl, exbind_ok, exbind_ok, exbind_ok] at hall
        cases hall
        exact ⟨tl, by simp⟩

/-- C2 witness. -/
theorem kudosForMsg_ack_every_witness :
    ∃ acks uses,
      ([({ from_user := "A", to_user := Val.str "B", channel := "ch",
           code_snippet := "snip", ack_text := some "nice", commit_sha := none,
           type := "slack_ack" } : KudosFact),
        { from_user := "A", to_user := Val.str "C", channel := "ch",
          code_snippet := "snip", ack_text := some "cool", commit_sha := none,
          type := "slack_ack" }] : List KudosFact) = acks ++ uses ∧
      kudosCommitPass "A" "snip" [] = .ok uses ∧
      List.Forall₂ (fun fu f => ∃ v t c, fu.user = some v ∧ v ≠ "A" ∧ fu.text = some t ∧
          (some "ch" : Option String) = some c ∧
          f = { from_user := "A", to_user := Val.str v, channel := c, code_snippet := "snip",
                ack_text := some t, commit_sha := none, type := "slack_ack" })
        (([⟨some "B", some "nice", none⟩, ⟨some "A", some "mine", none⟩,
           ⟨some "C", some "cool", none⟩, ⟨some "D", some "late", none⟩] : List Message).take 3
          |>.filter (fun fu => decide (fu.user ≠ some "A"))) acks ∧
      ∀ all : List KudosFact,
        extract_peer_kudos
          ⟨[⟨some "ch", ⟨some "A", some "snip", some true⟩ ::
             [⟨some "B", some "nice", none⟩, ⟨some "A", some "mine", none⟩,
              ⟨some "C", some "cool", none⟩, ⟨some "D", some "late", none⟩]⟩]⟩
          ⟨[]⟩ "A" 3 = .ok all →
        ∃ tl, all =
          [{ from_user := "A", to_user := Val.str "B", channel := "ch",
             code_snippet := "snip", ack_text := some "nice", commit_sha := none,
             type := "slack_ack" },
           { from_user := "A", to_user := Val.str "C", channel := "ch",
             code_snippet := "snip", ack_text := some "cool", commit_sha := none,
             type := "slack_ack" }] ++ tl :=
  kudosForMsg_ack_every "A" (some "ch") 3 []
    ⟨some "A", some "snip", some true⟩
    [⟨some "B", some "nice", none⟩, ⟨some "A", some "mine", none⟩,
     ⟨some "C", some "cool", none⟩, ⟨some "D", some "late", none⟩]
    "snip" _ rfl rfl rfl (by decide)

theorem findFirstAck_none {u : String} {l : List Message}
    (h : findFirstAck u l = none) : ∀ m ∈ l, m.user ≠ some u := by
  induction l with
  | nil => intro m hm; cases hm
  | cons m rest ih =>
    simp only [findFirstAck] at h
    by_cases hm : m.user = some u
    · rw [if_pos hm] at h; cases h
    · rw [if_neg hm] at h
      intro x hx
      rcases List.mem_cons.mp hx with hx | hx
      · subst hx; exact hm
      · exact ih h x hx

theorem findFirstAck_some {u : String} {l : List Message} {a : Message}
    (h : findFirstAck u l = some a) :
    ∃ k, ∃ hk : k < l.length, l.get ⟨k, hk⟩ = a ∧ a.user = some u ∧
      ∀ j (hj : j < k), (l.get ⟨j, Nat.lt_trans hj hk⟩).user ≠ some u := by
  induction l generalizing a with
  | nil => cases h
  | cons m rest ih =>
    simp only [findFirstAck] at h
    by_cases hm : m.user = some u
    · rw [if_pos hm] at h
      cases h
      exact ⟨0, Nat.succ_pos _, rfl, hm, fun j hj => absurd hj (Nat.not_lt_zero j)⟩
    · rw [if_neg hm] at h
      obtain ⟨k, hk, hget, huser, hprior⟩ := ih h
      refine ⟨k + 1, Nat.succ_lt_succ hk, hget, huser, ?_⟩
      intro j hj
      match j with
      | 0 => exact hm
      | j' + 1 => exact hprior j' (Nat.lt_of_succ_lt_succ hj)

theorem scanReceived_spec {u : String} {cid : Option String} {msgs : List Message}
    {facts : List ReceivedCodeFact}
    (h : scanReceived u cid msgs = .ok facts) :
    ∃ per, facts = per.flatten ∧
      List.Forall₂ (fun (p : Message × List Message) fs =>
        (¬(p.1.contains_code = some true ∧ p.1.user ≠ some u) → fs = []) ∧
        ((p.1.contains_code = some true ∧ p.1.user ≠ some u) →
          (fs = [] ∧ ∀ fu ∈ p.2.take 3, fu.user ≠ some u) ∨
          ∃ f, fs = [f] ∧ ∃ k, ∃ hk : k < (p.2.take 3).length,
            ((p.2.take 3).get ⟨k, hk⟩).user = some u ∧
            (∀ j (hj : j < k), ((p.2.take 3).get ⟨j, Nat.lt_trans hj hk⟩).user ≠ some u) ∧
            cid = some f.channel ∧ p.1.user = some f.from_user ∧
            p.1.text = some f.code_snippet ∧
            ((p.2.take 3).get ⟨k, hk⟩).text = some f.acknowledged_by_user))
      (withRest msgs) per := by
  induction msgs generalizing facts with
  | nil =>
    simp only [scanReceived] at h
    cases h
    exact ⟨[], rfl, List.Forall₂.nil⟩
  | cons msg rest ih =>
    simp only [scanReceived] at h
    by_cases hcond : msg.contains_code = some true ∧ msg.user ≠ some u
    · rw [if_pos hcond] at h
      cases hfind : findFirstAck u (rest.take 3) with
      | none =>
        simp only [hfind] at h
        obtain ⟨per, hjoin, hfa⟩ := ih h
        refine ⟨[] :: per, by simp [hjoin], List.Forall₂.cons ⟨fun hc => rfl, ?_⟩ hfa⟩
        intro _
        exact Or.inl ⟨rfl, findFirstAck_none hfind⟩
      | some ack =>
        simp only [hfind] at h
        cases hcid : cid with
        | none => rw [hcid, req_none, exbind_err] at h; cases h
        | some c =>
          subst hcid
          rw [req_some, exbind_ok] at h
          cases hfu : msg.user with
          | none => rw [hfu, req_none, exbind_err] at h; cases h
          | some v =>
            rw [hfu, req_some, exbind_ok] at h
            cases hsn : msg.text with
            | none => rw [hsn, req_none, exbind_err] at h; cases h
            | some sn =>
              rw [hsn, req_some, exbind_ok] at h
              cases hak : ack.text with
              | none => rw [hak, req_none, exbind_err] at h; cases h
              | some ak =>
                rw [hak, req_some, exbind_ok] at h
                cases htail : scanReceived u (some c) rest with
                | error e => rw [htail, exbind_err] at h; cases h
                | ok tail =>
                  rw [htail, exbind_ok] at h
                  cases h
                  obtain ⟨per, hjoin, hfa⟩ := ih htail
                  obtain ⟨k, hk, hget, huser, hprior⟩ := findFirstAck_some hfind
                  refine ⟨[⟨c, v, sn, ak⟩] :: per, by simp [hjoin],
                    List.Forall₂.cons ⟨fun hc => absurd hcond hc, ?_⟩ hfa⟩
                  intro _
                  refine Or.inr ⟨⟨c, v, sn, ak⟩, rfl, k, hk, ?_, hprior, rfl, hfu, hsn, ?_⟩
                  · rw [hget]; exact huser
                  · rw [hget]; exact hak
    · rw [if_neg hcond] at h
      obtain ⟨per, hjoin, hfa⟩ := ih h
      exact ⟨[] :: per, by simp [hjoin],
        List.Forall₂.cons ⟨fun _ => rfl, fun hc => absurd hc hcond⟩ hfa⟩

/-- C3: every received-code fact comes from a trigger by someone else with the
code flag set, acknowledged by the first target-user message within the next
3 positions, at most one fact per trigger. -/
theorem receivedCode_first_ack_per_trigger (slack : SlackData) (u : String)
    (facts : List ReceivedCodeFact)
    (h : get_user_received_code slack u = .ok facts) :
    ∃ perC, facts = perC.flatten ∧
      List.Forall₂ (fun (ch : Channel) cf => ∃ per, cf = per.flatten ∧
        List.Forall₂ (fun (p : Message × List Message) fs =>
          (¬(p.1.contains_code = some true ∧ p.1.user ≠ some u) → fs = []) ∧
          ((p.1.contains_code = some true ∧ p.1.user ≠ some u) →
            (fs = [] ∧ ∀ fu ∈ p.2.take 3, fu.user ≠ some u) ∨
            ∃ f, fs = [f] ∧ ∃ k, ∃ hk : k < (p.2.take 3).length,
              ((p.2.take 3).get ⟨k, hk⟩).user = some u ∧
              (∀ j (hj : j < k), ((p.2.take 3).get ⟨j, Nat.lt_trans hj hk⟩).user ≠ some u) ∧
              ch.channel_id = some f.channel ∧ p.1.user = some f.from_user ∧
              p.1.text = some f.code_snippet ∧
              ((p.2.take 3).get ⟨k, hk⟩).text = some f.acknowledged_by_user))
        (withRest ch.messages) per)
      slack.channels perC := by
  rw [get_user_received_code] at h
  obtain ⟨chans⟩ := slack
  induction chans generalizing facts with
  | nil =>
    simp only [receivedChannels] at h
    cases h
    exact ⟨[], rfl, List.Forall₂.nil⟩
  | cons ch rest ih =>
    simp only [receivedChannels] at h
    cases hhere : scanReceived u ch.channel_id ch.messages with
    | error e => rw [hhere, exbind_err] at h; cases h
    | ok here =>
      rw [hhere, exbind_ok] at h
      cases htail : receivedChannels u rest with
      | error e => rw [htail, exbind_err] at h; cases h
      | ok tail =>
        rw [htail, exbind_ok] at h
        cases h
        obtain ⟨perC, hjoin, hfa⟩ := ih tail htail
        obtain ⟨per, hjoin2, hfa2⟩ := scanReceived_spec hhere
        exact ⟨here :: perC, by simp [hjoin], List.Forall₂.cons ⟨per, hjoin2, hfa2⟩ hfa⟩

/-- C3 witness. -/
theorem receivedCode_first_ack_per_trigger_witness :
    ∃ perC, ([({ channel := "general", from_user := "B",
                 code_snippet := "```for x in y```",
                 acknowledged_by_user := "nice, thanks" } : ReceivedCodeFact)]
        : List ReceivedCodeFact) = perC.flatten ∧
      List.Forall₂ (fun (ch : Channel) cf => ∃ per, cf = per.flatten ∧
        List.Forall₂ (fun (p : Message × List Message) fs =>
          (¬(p.1.contains_code = some true ∧ p.1.user ≠ some "A") → fs = []) ∧
          ((p.1.contains_code = some true ∧ p.1.user ≠ some "A") →
            (fs = [] ∧ ∀ fu ∈ p.2.take 3, fu.user ≠ some "A") ∨
            ∃ f, fs = [f] ∧ ∃ k, ∃ hk : k < (p.2.take 3).length,
              ((p.2.take 3).get ⟨k, hk⟩).user = some "A" ∧
              (∀ j (hj : j < k), ((p.2.take 3).get ⟨j, Nat.lt_trans hj hk⟩).user ≠ some "A") ∧
              ch.channel_id = some f.channel ∧ p.1.user = some f.from_user ∧
              p.1.text = some f.code_snippet ∧
              ((p.2.take 3).get ⟨k, hk⟩).text = some f.acknowledged_by_user))
        (withRest ch.messages) per)
      [⟨some "general", [⟨some "A", some "hi", none⟩,
                         ⟨some "B", some "```for x in y```", some true⟩,
                         ⟨some "A", some "nice, thanks", none⟩]⟩] perC :=
  receivedCode_first_ack_per_trigger
    ⟨[⟨some "general", [⟨some "A", some "hi", none⟩,
                        ⟨some "B", some "```for x in y```", some true⟩,
                        ⟨some "A", some "nice, thanks", none⟩]⟩]⟩ "A" _ (by decide)

theorem mem_speakIndices {u : String} {ts : List TranscriptLine} {idx : Nat} :
    idx ∈ speakIndices u ts ↔
      ∃ h : idx < ts.length, (ts.get ⟨idx, h⟩).user = some u := by
  simp only [speakIndices, List.mem_filter, List.mem_range, decide_eq_true_eq]
  constructor
  · rintro ⟨hlt, hu⟩
    refine ⟨hlt, ?_⟩
    rwa [List.getD, List.get?_eq_get hlt, Option.getD_some] at hu
  · rintro ⟨hlt, hu⟩
    refine ⟨hlt, ?_⟩
    rwa [List.getD, List.get?_eq_get hlt, Option.getD_some]

theorem mem_sortedIncluded {u : String} {cw : Nat} {ts : List TranscriptLine} {i : Nat} :
    i ∈ sortedIncluded u cw ts ↔
      ∃ idx, ∃ hidx : idx < ts.length, (ts.get ⟨idx, hidx⟩).user = some u ∧
        idx - cw ≤ i ∧ i < min ts.length (idx + cw + 1) := by
  simp only [sortedIncluded, List.mem_filter, List.mem_range, includedB,
    List.any_eq_true, Bool.and_eq_true, decide_eq_true_eq]
  constructor
  · rintro ⟨hlt, idx, hspeak, hlo, hhi⟩
    obtain ⟨hidx, hu⟩ := mem_speakIndices.mp hspeak
    exact ⟨idx, hidx, hu, hlo, hhi⟩
  · rintro ⟨idx, hidx, hu, hlo, hhi⟩
    exact ⟨Nat.lt_of_lt_of_le hhi (Nat.min_le_left _ _), idx,
      mem_speakIndices.mpr ⟨hidx, hu⟩, hlo, hhi⟩

theorem sortedIncluded_sorted (u : String) (cw : Nat) (ts : List TranscriptLine) :
    List.Sorted (· < ·) (sortedIncluded u cw ts) :=
  List.Pairwise.filter _ (List.pairwise_lt_range _)

theorem sortedIncluded_nodup (u : String) (cw : Nat) (ts : List TranscriptLine) :
    (sortedIncluded u cw ts).Nodup :=
  List.Nodup.filter _ (List.nodup_range _)

theorem sortedIncluded_eq_nil_iff {u : String} {cw : Nat} {ts : List TranscriptLine} :
    sortedIncluded u cw ts = [] ↔ ∀ l ∈ ts, l.user ≠ some u := by
  rw [List.eq_nil_iff_forall_not_mem]
  constructor
  · intro hno l hl hu
    obtain ⟨⟨idx, hidx⟩, hget⟩ := List.mem_iff_get.mp hl
    refine hno idx (mem_sortedIncluded.mpr ⟨idx, hidx, ?_, Nat.sub_le _ _, ?_⟩)
    · rw [hget]; exact hu
    · exact Nat.lt_min.mpr ⟨hidx, Nat.lt_succ_of_le (Nat.le_add_right _ _)⟩
  · intro hall i hi
    obtain ⟨idx, hidx, hu, _, _⟩ := mem_sortedIncluded.mp hi
    exact hall _ (List.get_mem ts idx hidx) hu

theorem processMeeting_spec {u : String} {cw : Nat} {m : Meeting}
    {fs : List ContextFlow} (h : processMeeting u cw m = .ok fs) :
    ((∀ l ∈ m.transcript, l.user ≠ some u) → fs = []) ∧
    ((∃ l ∈ m.transcript, l.user = some u) →
      ∃ fl I, fs = [{ meeting_id := m.meeting_id, flow := fl }] ∧
        List.Sorted (· < ·) I ∧ I.Nodup ∧
        (∀ i, i ∈ I ↔ ∃ idx, ∃ hidx : idx < m.transcript.length,
          (m.transcript.get ⟨idx, hidx⟩).user = some u ∧
          idx - cw ≤ i ∧ i < min m.transcript.length (idx + cw + 1)) ∧
        buildFlow m.transcript I = .ok fl) := by
  rw [processMeeting] at h
  by_cases hemp : sortedIncluded u cw m.transcript = []
  · rw [if_pos hemp] at h
    cases h
    refine ⟨fun _ => rfl, ?_⟩
    rintro ⟨l, hl, hu⟩
    exact absurd hu (sortedIncluded_eq_nil_iff.mp hemp l hl)
  · rw [if_neg hemp] at h
    cases hbf : buildFlow m.transcript (sortedIncluded u cw m.transcript) with
    | error e => rw [hbf, exbind_err] at h; cases h
    | ok fl =>
      rw [hbf, exbind_ok] at h
      cases h
      refine ⟨fun hall => absurd (sortedIncluded_eq_nil_iff.mpr hall) hemp, ?_⟩
      intro _
      exact ⟨fl, sortedIncluded u cw m.transcript, rfl,
        sortedIncluded_sorted u cw m.transcript,
        sortedIncluded_nodup u cw m.transcript,
        fun i => mem_sortedIncluded, hbf⟩

/-- C4: per meeting with at least one target-user turn, exactly one flow is
emitted, built from a strictly increasing, duplicate-free index list whose
membership is exactly the union of the clamped context windows; meetings with
no target-user turn produce nothing. -/
theorem transcriptContext_flows (ms : List Meeting) (u : String) (cw : Nat)
    (flows : List ContextFlow)
    (h : get_user_meeting_transcripts_with_context ms u cw = .ok flows) :
    ∃ per, flows = per.flatten ∧
      List.Forall₂ (fun (m : Meeting) fs =>
        ((∀ l ∈ m.transcript, l.user ≠ some u) → fs = []) ∧
        ((∃ l ∈ m.transcript, l.user = some u) →
          ∃ fl I, fs = [{ meeting_id := m.meeting_id, flow := fl }] ∧
            List.Sorted (· < ·) I ∧ I.Nodup ∧
            (∀ i, i ∈ I ↔ ∃ idx, ∃ hidx : idx < m.transcript.length,
              (m.transcript.get ⟨idx, hidx⟩).user = some u ∧
              idx - cw ≤ i ∧ i < min m.transcript.length (idx + cw + 1)) ∧
            buildFlow m.transcript I = .ok fl)) ms per := by
  rw [get_user_meeting_transcripts_with_context] at h
  induction ms generalizing flows with
  | nil =>
    simp only [transcriptsScan] at h
    cases h
    exact ⟨[], rfl, List.Forall₂.nil⟩
  | cons m rest ih =>
    simp only [transcriptsScan] at h
    cases hhere : processMeeting u cw m with
    | error e => rw [hhere, exbind_err] at h; cases h
    | ok here =>
      rw [hhere, exbind_ok] at h
      cases htail : transcriptsScan u cw rest with
      | error e => rw [htail, exbind_err] at h; cases h
      | ok tail =>
        rw [htail, exbind_ok] at h
        cases h
        obtain ⟨per, hjoin, hfa⟩ := ih tail htail
        exact ⟨here :: per, by simp [hjoin], List.Forall₂.cons (processMeeting_spec hhere) hfa⟩

/-- C4 witness. -/
theorem transcriptContext_flows_witness :
    ∃ per, ([({ meeting_id := some "m1",
                flow := [⟨"C", "t1"⟩, ⟨"A", "t2"⟩, ⟨"B", "t3"⟩] } : ContextFlow)]
        : List ContextFlow) = per.flatten ∧
      List.Forall₂ (fun (m : Meeting) fs =>
        ((∀ l ∈ m.transcript, l.user ≠ some "A") → fs = []) ∧
        ((∃ l ∈ m.transcript, l.user = some "A") →
          ∃ fl I, fs = [{ meeting_id := m.meeting_id, flow := fl }] ∧
            List.Sorted (· < ·) I ∧ I.Nodup ∧
            (∀ i, i ∈ I ↔ ∃ idx, ∃ hidx : idx < m.transcript.length,
              (m.transcript.get ⟨idx, hidx⟩).user = some "A" ∧
              idx - 1 ≤ i ∧ i < min m.transcript.length (idx + 1 + 1)) ∧
            buildFlow m.transcript I = .ok fl))
      [⟨some "m1", [⟨some "B", some "t0"⟩, ⟨some "C", some "t1"⟩, ⟨some "A", some "t2"⟩,
                    ⟨some "B", some "t3"⟩, ⟨some "C", some "t4"⟩]⟩] per :=
  transcriptContext_flows
    [⟨some "m1", [⟨some "B", some "t0"⟩, ⟨some "C", some "t1"⟩, ⟨some "A", some "t2"⟩,
                  ⟨some "B", some "t3"⟩, ⟨some "C", some "t4"⟩]⟩] "A" 1 _ (by decide)

theorem commitOut_spec {c out : Cdict} (h : commitOut c = .ok out) :
    ∃ sha date msg fc la ld area cd,
      dget c "sha" = some sha ∧ dget c "date" = some date ∧
      dget c "commit_message" = some msg ∧ dget c "files_changed" = some fc ∧
      dget c "lines_added" = some la ∧ dget c "lines_deleted" = some ld ∧
      dget c "area" = some area ∧ dget c "codediff" = some cd ∧
      out = [("sha", sha), ("date", date), ("message", msg), ("files_changed", fc),
             ("lines_added", la), ("lines_deleted", ld), ("area", area),
             ("codediff", cd)] := by
  rw [commitOut] at h
  cases h1 : dget c "sha" with
  | none => simp only [item, h1, exbind_err] at h; cases h
  | some sha =>
  simp only [item, h1, exbind_ok] at h
  cases h2 : dget c "date" with
  | none => simp only [item, h2, exbind_err] at h; cases h
  | some date =>
  simp only [item, h2, exbind_ok] at h
  cases h3 : dget c "commit_message" with
  | none => simp only [item, h3, exbind_err] at h; cases h
  | some msg =>
  simp only [item, h3, exbind_ok] at h
  cases h4 : dget c "files_changed" with
  | none => simp only [item, h4, exbind_err] at h; cases h
  | some fc =>
  simp only [item, h4, exbind_ok] at h
  cases h5 : dget c "lines_added" with
  | none => simp only [item, h5, exbind_err] at h; cases h
  | some la =>
  simp only [item, h5, exbind_ok] at h
  cases h6 : dget c "lines_deleted" with
  | none => simp only [item, h6, exbind_err] at h; cases h
  | some ld =>
  simp only [item, h6, exbind_ok] at h
  cases h7 : dget c "area" with
  | none => simp only [item, h7, exbind_err] at h; cases h
  | some area =>
  simp only [item, h7, exbind_ok] at h
  cases h8 : dget c "codediff" with
  | none => simp only [item, h8, exbind_err] at h; cases h
  | some cd =>
  simp only [item, h8, exbind_ok] at h
  cases h
  exact ⟨sha, date, msg, fc, la, ld, area, cd, rfl, rfl, rfl, rfl, rfl, rfl, rfl, rfl, rfl⟩

/-- C5 (amended): the personal-commit extractor returns, in source order, one
record per commit whose author equals the target user; the listed fields keep
their values, the commit message is re-keyed as `message`, and the author
field is not copied. -/
theorem githubCommits_projected (gh : GithubData) (u : String) (res : List Cdict)
    (h : get_user_github_commits gh u = .ok res) :
    List.Forall₂ (fun c out => ∃ sha date msg fc la ld area cd,
      dget c "sha" = some sha ∧ dget c "date" = some date ∧
      dget c "commit_message" = some msg ∧ dget c "files_changed" = some fc ∧
      dget c "lines_added" = some la ∧ dget c "lines_deleted" = some ld ∧
      dget c "area" = some area ∧ dget c "codediff" = some cd ∧
      out = [("sha", sha), ("date", date), ("message", msg), ("files_changed", fc),
             ("lines_added", la), ("lines_deleted", ld), ("area", area),
             ("codediff", cd)])
    (gh.commits.filter (fun c => decide (dget c "author" = some (Val.str u)))) res := by
  rw [get_user_github_commits] at h
  obtain ⟨commits⟩ := gh
  induction commits generalizing res with
  | nil =>
    simp only [githubCommitsScan] at h
    cases h
    exact List.Forall₂.nil
  | cons c rest ih =>
    simp only [githubCommitsScan] at h
    by_cases hau : dget c "author" = some (Val.str u)
    · rw [if_pos hau] at h
      cases hout : commitOut c with
      | error e => rw [hout, exbind_err] at h; cases h
      | ok out =>
        rw [hout, exbind_ok] at h
        cases htail : githubCommitsScan u rest with
        | error e => rw [htail, exbind_err] at h; cases h
        | ok tail =>
          rw [htail, exbind_ok] at h
          cases h
          have hfilter : List.filter (fun c => decide (dget c "author" = some (Val.str u)))
              (c :: rest) = c :: List.filter
                (fun c => decide (dget c "author" = some (Val.str u))) rest := by
            simp [List.filter_cons, hau]
          rw [hfilter]
          exact List.Forall₂.cons (commitOut_spec hout) (ih tail htail)
    · rw [if_neg hau] at h
      have hfilter : List.filter (fun c => decide (dget c "author" = some (Val.str u)))
          (c :: rest) = List.filter
            (fun c => decide (dget c "author" = some (Val.str u))) rest := by
        simp [List.filter_cons, hau]
      rw [hfilter]
      exact ih res h

/-- C5 witness. -/
theorem githubCommits_projected_witness :
    List.Forall₂ (fun c out => ∃ sha date msg fc la ld area cd,
      dget c "sha" = some sha ∧ dget c "date" = some date ∧
      dget c "commit_message" = some msg ∧ dget c "files_changed" = some fc ∧
      dget c "lines_added" = some la ∧ dget c "lines_deleted" = some ld ∧
      dget c "area" = some area ∧ dget c "codediff" = some cd ∧
      out = [("sha", sha), ("date", date), ("message", msg), ("files_changed", fc),
             ("lines_added", la), ("lines_deleted", ld), ("area", area),
             ("codediff", cd)])
    (([[("author", Val.str "A"), ("sha", Val.str "s"), ("date", Val.str "d"),
        ("commit_message", Val.str "m"), ("files_changed", Val.strList ["f"]),
        ("lines_added", Val.int 1), ("lines_deleted", Val.int 2),
        ("area", Val.str "core"), ("codediff", Val.str "diff")]] : List Cdict).filter
      (fun c => decide (dget c "author" = some (Val.str "A"))))
    [[("sha", Val.str "s"), ("date", Val.str "d"), ("message", Val.str "m"),
      ("files_changed", Val.strList ["f"]), ("lines_added", Val.int 1),
      ("lines_deleted", Val.int 2), ("area", Val.str "core"),
      ("codediff", Val.str "diff")]] :=
  githubCommits_projected
    ⟨[[("author", Val.str "A"), ("sha", Val.str "s"), ("date", Val.str "d"),
       ("commit_message", Val.str "m"), ("files_changed", Val.strList ["f"]),
       ("lines_added", Val.int 1), ("lines_deleted", Val.int 2),
       ("area", Val.str "core"), ("codediff", Val.str "diff")]]⟩ "A" _ (by decide)

/-- C5 counterexample: the output record of `get_user_github_commits` does not
carry the input's field names unchanged — the `author` field is dropped and
the `commit_message` field is re-keyed as `message`. -/
theorem githubCommits_renames_fields :
    get_user_github_commits
      ⟨[[("author", Val.str "A"), ("sha", Val.str "s"), ("date", Val.str "d"),
         ("commit_message", Val.str "m"), ("files_changed", Val.strList ["f"]),
         ("lines_added", Val.int 1), ("lines_deleted", Val.int 2),
         ("area", Val.str "core"), ("codediff", Val.str "diff")]]⟩ "A"
    = .ok [[("sha", Val.str "s"), ("date", Val.str "d"), ("message", Val.str "m"),
            ("files_changed", Val.strList ["f"]), ("lines_added", Val.int 1),
            ("lines_deleted", Val.int 2), ("area", Val.str "core"),
            ("codediff", Val.str "diff")]]
    ∧ dget [("author", Val.str "A"), ("sha", Val.str "s"), ("date", Val.str "d"),
            ("commit_message", Val.str "m"), ("files_changed", Val.strList ["f"]),
            ("lines_added", Val.int 1), ("lines_deleted", Val.int 2),
            ("area", Val.str "core"), ("codediff", Val.str "diff")] "author"
        = some (Val.str "A")
    ∧ dget [("sha", Val.str "s"), ("date", Val.str "d"), ("message", Val.str "m"),
            ("files_changed", Val.strList ["f"]), ("lines_added", Val.int 1),
            ("lines_deleted", Val.int 2), ("area", Val.str "core"),
            ("codediff", Val.str "diff")] "author" = none
    ∧ dget [("sha", Val.str "s"), ("date", Val.str "d"), ("message", Val.str "m"),
            ("files_changed", Val.strList ["f"]), ("lines_added", Val.int 1),
            ("lines_deleted", Val.int 2), ("area", Val.str "core"),
            ("codediff", Val.str "diff")] "commit_message" = none
    ∧ dget [("sha", Val.str "s"), ("date", Val.str "d"), ("message", Val.str "m"),
            ("files_changed", Val.strList ["f"]), ("lines_added", Val.int 1),
            ("lines_deleted", Val.int 2), ("area", Val.str "core"),
            ("codediff", Val.str "diff")] "message" = some (Val.str "m") := by
  decide

/-- C6: each extractor raises a `KeyError` as soon as a record reached by the
scan lacks a field that must be emitted (trigger user or text, acknowledger
text, matched commit sha or author, flow line text, copied commit field),
while the optional contains-code filter flag silently defaults to false. -/
theorem extractors_fail_fast_on_missing_fields :
    get_user_received_code
      ⟨[⟨some "c", [⟨none, some "code", some true⟩, ⟨some "A", some "ok", none⟩]⟩]⟩ "A"
      = .error "KeyError: user"
    ∧ get_user_received_code
      ⟨[⟨some "c", [⟨some "B", none, some true⟩, ⟨some "A", some "ok", none⟩]⟩]⟩ "A"
      = .error "KeyError: text"
    ∧ get_user_received_code
      ⟨[⟨some "c", [⟨some "B", some "code", some true⟩, ⟨some "A", none, none⟩]⟩]⟩ "A"
      = .error "KeyError: text"
    ∧ extract_peer_kudos
      ⟨[⟨some "c", [⟨some "A", some "s", some true⟩, ⟨none, some "ok", none⟩]⟩]⟩
      ⟨[]⟩ "A" 3 = .error "KeyError: user"
    ∧ extract_peer_kudos
      ⟨[⟨some "c", [⟨some "A", none, some true⟩]⟩]⟩ ⟨[]⟩ "A" 3
      = .error "KeyError: text"
    ∧ extract_peer_kudos
      ⟨[⟨some "c", [⟨some "A", some "s", some true⟩]⟩]⟩
      ⟨[[("author", Val.str "B"), ("codediff", Val.str "s")]]⟩ "A" 3
      = .error "KeyError: sha"
    ∧ extract_peer_kudos
      ⟨[⟨some "c", [⟨some "A", some "s", some true⟩]⟩]⟩
      ⟨[[("codediff", Val.str "s"), ("sha", Val.str "x")]]⟩ "A" 3
      = .error "KeyError: author"
    ∧ get_user_github_commits
      ⟨[[("author", Val.str "A"), ("sha", Val.str "s")]]⟩ "A"
      = .error "KeyError: date"
    ∧ get_user_meeting_transcripts_with_context
      [⟨some "m", [⟨some "A", none⟩]⟩] "A" 2 = .error "KeyError: text"
    ∧ get_user_received_code
      ⟨[⟨some "c", [⟨some "B", some "code", none⟩, ⟨some "A", some "ok", none⟩]⟩]⟩ "A"
      = .ok []
    ∧ extract_peer_kudos
      ⟨[⟨some "c", [⟨some "A", some "s", none⟩, ⟨some "B", some "ok", none⟩]⟩]⟩
      ⟨[[("author", Val.str "B"), ("sha", Val.str "x"), ("codediff", Val.str "s")]]⟩
      "A" 3 = .ok [] := by
  decide

/-- C7: the literal scenario — target user shares a code-flagged snippet with
no follow-ups, one commit by another author contains it in its diff; the
result is exactly one commit-usage fact and zero channel acknowledgments. -/
theorem kudos_literal_commit_usage_scenario :
    extract_peer_kudos
      ⟨[⟨some "general", [⟨some "A", some "def foo(): return 1", some true⟩]⟩]⟩
      ⟨[[("author", Val.str "B"), ("sha", Val.str "sha1"),
         ("codediff", Val.str "x = 0\ndef foo(): return 1\n"),
         ("commit_message", Val.str "stuff")]]⟩ "A" 3
    = .ok [{ from_user := "A", to_user := Val.str "B", channel := "github",
             code_snippet := "def foo(): return 1", ack_text := none,
             commit_sha := some (Val.str "sha1"), type := "github_usage" }]
    ∧ List.countP (fun f => decide (f.type = "github_usage"))
        [({ from_user := "A", to_user := Val.str "B", channel := "github",
            code_snippet := "def foo(): return 1", ack_text := none,
            commit_sha := some (Val.str "sha1"), type := "github_usage" } : KudosFact)] = 1
    ∧ List.countP (fun f => decide (f.type = "slack_ack"))
        [({ from_user := "A", to_user := Val.str "B", channel := "github",
            code_snippet := "def foo(): return 1", ack_text := none,
            commit_sha := some (Val.str "sha1"), type := "github_usage" } : KudosFact)] = 0 := by
  decide

theorem strTake_empty : strTake 30 "" = "" := rfl

theorem kudosCommitPass_empty_snippet {u : String} {gh : List Cdict}
    {facts : List KudosFact} (h : kudosCommitPass u "" gh = .ok facts) :
    List.Forall₂ (fun c f => ∃ a s, dget c "author" = some a ∧ a ≠ Val.str u ∧
        dget c "sha" = some s ∧
        f = { from_user := u, to_user := a, channel := "github", code_snippet := "",
              ack_text := none, commit_sha := some s, type := "github_usage" })
      (gh.filter (fun c => decide (dget c "author" ≠ some (Val.str u)))) facts := by
  induction gh generalizing facts with
  | nil =>
    simp only [kudosCommitPass] at h
    cases h
    exact List.Forall₂.nil
  | cons c rest ih =>
    simp only [kudosCommitPass] at h
    by_cases hau : dget c "author" ≠ some (Val.str u)
    · rw [if_pos hau] at h
      cases hcd : dgetD c "codediff" (Val.str "") with
      | str cd =>
        rw [hcd] at h
        simp only [valStr, exbind_ok] at h
        cases hcm : dgetD c "commit_message" (Val.str "") with
        | str cm =>
          rw [hcm] at h
          simp only [valStr, exbind_ok] at h
          rw [strTake_empty, strIn_empty, if_pos rfl] at h
          cases hau' : dget c "author" with
          | none => simp only [item, hau', exbind_err] at h; cases h
          | some a =>
            simp only [item, hau', exbind_ok] at h
            cases hsha : dget c "sha" with
            | none => simp only [item, hsha, exbind_err] at h; cases h
            | some s =>
              simp only [item, hsha, exbind_ok] at h
              cases htail : kudosCommitPass u "" rest with
              | error e => rw [htail, exbind_err] at h; cases h
              | ok tail =>
                rw [htail, exbind_ok] at h
                cases h
                have hfilter : List.filter
                    (fun c => decide (dget c "author" ≠ some (Val.str u))) (c :: rest)
                    = c :: List.filter
                      (fun c => decide (dget c "author" ≠ some (Val.str u))) rest := by
                  simp [List.filter_cons, hau]
                rw [hfilter]
                have hane : a ≠ Val.str u := fun hEq => hau (by rw [hau', hEq])
                exact List.Forall₂.cons ⟨a, s, hau', hane, hsha, rfl⟩ (ih htail)
        | bool b => rw [hcm] at h; simp only [valStr, exbind_err] at h; cases h
        | int n => rw [hcm] at h; simp only [valStr, exbind_err] at h; cases h
        | strList xs => rw [hcm] at h; simp only [valStr, exbind_err] at h; cases h
      | bool b => rw [hcd] at h; simp only [valStr, exbind_err] at h; cases h
      | int n => rw [hcd] at h; simp only [valStr, exbind_err] at h; cases h
      | strList xs => rw [hcd] at h; simp only [valStr, exbind_err] at h; cases h
    · rw [if_neg hau] at h
      have hfilter : List.filter
          (fun c => decide (dget c "author" ≠ some (Val.str u))) (c :: rest)
          = List.filter (fun c => decide (dget c "author" ≠ some (Val.str u))) rest := by
        simp only [List.filter_cons, decide_eq_true_eq]
        rw [if_neg hau]
      rw [hfilter]
      exact ih h

/-- C8: a code-flagged target-user message with empty text makes the commit
pass emit one usage fact for every commit whose author differs from the
target user, because the 30-character prefix of the empty snippet is the
empty string, a substring of every diff-plus-message text. -/
theorem extractKudos_empty_snippet_matches_all (u cidv : String) (w : Nat)
    (gh : List Cdict) (facts : List KudosFact)
    (h : extract_peer_kudos ⟨[⟨some cidv, [⟨some u, some "", some true⟩]⟩]⟩
        ⟨gh⟩ u w = .ok facts) :
    strTake 30 "" = "" ∧ (∀ s : String, strIn "" s = true) ∧
    List.Forall₂ (fun c f => ∃ a s, dget c "author" = some a ∧ a ≠ Val.str u ∧
        dget c "sha" = some s ∧
        f = { from_user := u, to_user := a, channel := "github", code_snippet := "",
              ack_text := none, commit_sha := some s, type := "github_usage" })
      (gh.filter (fun c => decide (dget c "author" ≠ some (Val.str u)))) facts := by
  refine ⟨strTake_empty, strIn_empty, ?_⟩
  rw [extract_peer_kudos] at h
  simp only [kudosChannels, kudosScanMessages] at h
  rw [kudosForMsg, if_pos ⟨rfl, rfl⟩, req_some, exbind_ok] at h
  simp only [List.take_nil, kudosAckPass, exbind_ok] at h
  cases hcp : kudosCommitPass u "" gh with
  | error e =>
    rw [hcp] at h
    simp only [exbind_err] at h
    cases h
  | ok uses =>
    rw [hcp] at h
    simp only [exbind_ok] at h
    cases h
    simpa using kudosCommitPass_empty_snippet hcp

/-- C8 witness. -/
theorem extractKudos_empty_snippet_matches_all_witness :
    strTake 30 "" = "" ∧ (∀ s : String, strIn "" s = true) ∧
    List.Forall₂ (fun c f => ∃ a s, dget c "author" = some a ∧ a ≠ Val.str "A" ∧
        dget c "sha" = some s ∧
        f = { from_user := "A", to_user := a, channel := "github", code_snippet := "",
              ack_text := none, commit_sha := some s, type := "github_usage" })
      (([[("author", Val.str "B"), ("sha", Val.str "s1")],
         [("author", Val.str "A"), ("sha", Val.str "s2")],
         [("author", Val.str "C"), ("sha", Val.str "s3")]] : List Cdict).filter
        (fun c => decide (dget c "author" ≠ some (Val.str "A"))))
      ([{ from_user := "A", to_user := Val.str "B", channel := "github",
          code_snippet := "", ack_text := none, commit_sha := some (Val.str "s1"),
          type := "github_usage" },
        { from_user := "A", to_user := Val.str "C", channel := "github",
          code_snippet := "", ack_text := none, commit_sha := some (Val.str "s3"),
          type := "github_usage" }] : List KudosFact) :=
  extractKudos_empty_snippet_matches_all "A" "c" 3
    [[("author", Val.str "B"), ("sha", Val.str "s1")],
     [("author", Val.str "A"), ("sha", Val.str "s2")],
     [("author", Val.str "C"), ("sha", Val.str "s3")]]
    ([{ from_user := "A", to_user := Val.str "B", channel := "github",
        code_snippet := "", ack_text := none, commit_sha := some (Val.str "s1"),
        type := "github_usage" },
      { from_user := "A", to_user := Val.str "C", channel := "github",
        code_snippet := "", ack_text := none, commit_sha := some (Val.str "s3"),
        type := "github_usage" }] : List KudosFact) (by decide)

/-- C9: when the shared snippet is shorter than 30 characters, the 30-character
prefix is the whole snippet, so the commit-usage pass emits a fact for a
qualifying commit exactly when the entire snippet occurs in the commit's
diff-plus-message text. -/
theorem kudosCommitPass_short_snippet (u snippet cd cm : String) (a s : Val)
    (c : Cdict) (hlen : snippet.length < 30)
    (hau : dget c "author" = some a) (hane : a ≠ Val.str u)
    (hsha : dget c "sha" = some s)
    (hcd : dgetD c "codediff" (Val.str "") = Val.str cd)
    (hcm : dgetD c "commit_message" (Val.str "") = Val.str cm) :
    strTake 30 snippet = snippet ∧
    kudosCommitPass u snippet [c] =
      .ok (if strIn snippet (cd ++ " " ++ cm) then
            [{ from_user := u, to_user := a, channel := "github",
               code_snippet := snippet, ack_text := none, commit_sha := some s,
               type := "github_usage" }]
           else []) := by
  refine ⟨strTake_of_short hlen, ?_⟩
  have hne : dget c "author" ≠ some (Val.str u) := by
    rw [hau]
    intro hEq
    exact hane (Option.some.inj hEq)
  simp only [kudosCommitPass]
  rw [if_pos hne, hcd]
  simp only [valStr, exbind_ok]
  rw [hcm]
  simp only [valStr, exbind_ok]
  rw [strTake_of_short hlen]
  cases hm : strIn snippet (cd ++ " " ++ cm) with
  | false => rw [if_neg (by simp [hm]), if_neg (by simp [hm])]
  | true =>
    rw [if_pos (by simp [hm]), if_pos (by simp [hm])]
    simp only [item, hau, hsha, exbind_ok]

/-- C9 witness. -/
theorem kudosCommitPass_short_snippet_witness :
    strTake 30 "abc" = "abc" ∧
    kudosCommitPass "A" "abc"
      [[("author", Val.str "B"), ("sha", Val.str "s"),
        ("codediff", Val.str "xxabcxx")]] =
      .ok (if strIn "abc" ("xxabcxx" ++ " " ++ "") then
            [{ from_user := "A", to_user := Val.str "B", channel := "github",
               code_snippet := "abc", ack_text := none,
               commit_sha := some (Val.str "s"), type := "github_usage" }]
           else []) :=
  kudosCommitPass_short_snippet "A" "abc" "xxabcxx" "" (Val.str "B") (Val.str "s")
    [("author", Val.str "B"), ("sha", Val.str "s"), ("codediff", Val.str "xxabcxx")]
    (by decide) (by decide) (by decide) (by decide) (by decide) (by decide)

/-- C10: the commit-usage pass never raises over commits that lack the diff
body or the message text — both default to the empty string in the match
test — and only a matching commit needs its author and sha present. -/
theorem kudosCommitPass_defaults_missing_text (u snippet : String) (gh : List Cdict)
    (hwf : ∀ c ∈ gh, dget c "author" ≠ some (Val.str u) →
      ∃ cd cm, dgetD c "codediff" (Val.str "") = Val.str cd ∧
        dgetD c "commit_message" (Val.str "") = Val.str cm ∧
        (strIn (strTake 30 snippet) (cd ++ " " ++ cm) = true →
          (∃ a, dget c "author" = some a) ∧ (∃ s, dget c "sha" = some s))) :
    (∃ facts, kudosCommitPass u snippet gh = .ok facts) ∧
    (∀ c : Cdict, dget c "codediff" = none →
      dgetD c "codediff" (Val.str "") = Val.str "") ∧
    (∀ c : Cdict, dget c "commit_message" = none →
      dgetD c "commit_message" (Val.str "") = Val.str "") := by
  refine ⟨?_, fun c hc => by simp [dgetD, hc], fun c hc => by simp [dgetD, hc]⟩
  induction gh with
  | nil => exact ⟨[], rfl⟩
  | cons c rest ih =>
    obtain ⟨facts, hfacts⟩ := ih (fun c hc => hwf c (List.mem_cons_of_mem _ hc))
    by_cases hau : dget c "author" ≠ some (Val.str u)
    · obtain ⟨cd, cm, hcd, hcm, hreq⟩ := hwf c (List.mem_cons_self _ _) hau
      cases hm : strIn (strTake 30 snippet) (cd ++ " " ++ cm) with
      | false =>
        refine ⟨facts, ?_⟩
        simp only [kudosCommitPass]
        rw [if_pos hau, hcd]
        simp only [valStr, exbind_ok]
        rw [hcm]
        simp only [valStr, exbind_ok]
        rw [if_neg (by simp [hm])]
        exact hfacts
      | true =>
        obtain ⟨⟨a, ha⟩, ⟨sv, hs⟩⟩ := hreq hm
        refine ⟨{ from_user := u, to_user := a, channel := "github",
                  code_snippet := snippet, ack_text := none, commit_sha := some sv,
                  type := "github_usage" } :: facts, ?_⟩
        simp only [kudosCommitPass]
        rw [if_pos hau, hcd]
        simp only [valStr, exbind_ok]
        rw [hcm]
        simp only [valStr, exbind_ok]
        rw [if_pos (by simp [hm])]
        simp only [item, ha, hs, exbind_ok]
        rw [hfacts, exbind_ok]
    · refine ⟨facts, ?_⟩
      simp only [kudosCommitPass]
      rw [if_neg hau]
      exact hfacts

/-- C10 witness. -/
theorem kudosCommitPass_defaults_missing_text_witness :
    (∃ facts, kudosCommitPass "A" "zzz"
      [[("author", Val.str "B")], [("sha", Val.str "s")]] = .ok facts) ∧
    (∀ c : Cdict, dget c "codediff" = none →
      dgetD c "codediff" (Val.str "") = Val.str "") ∧
    (∀ c : Cdict, dget c "commit_message" = none →
      dgetD c "commit_message" (Val.str "") = Val.str "") :=
  kudosCommitPass_defaults_missing_text "A" "zzz"
    [[("author", Val.str "B")], [("sha", Val.str "s")]] (by
      intro c hc hau
      rcases List.mem_cons.mp hc with h1 | h1
      · subst h1
        exact ⟨"", "", by decide, by decide, fun hm => absurd hm (by decide)⟩
      · rcases List.mem_cons.mp h1 with h2 | h2
        · subst h2
          exact ⟨"", "", by decide, by decide, fun hm => absurd hm (by decide)⟩
        · cases h2)
